import Mathlib

/-!
Verification development for the cryoMFN hierarchical rotation-search core
(`src/lib-python/models.py`): the branch-and-bound pose search `BNBOpt`
(`eval_base_grid`, `eval_incremental_grid`, `opt_theta`) and the SO(3)
reparameterization sampler `SO3reparameterize.sampleSO3`.

Floating-point pixel values are modelled by `FVal`: a rational number, one of
the two infinities, or NaN.  The search itself only needs subtraction,
squaring, summation and `torch.argmin`, all of which are given their IEEE /
PyTorch semantics (`torch.argmin` propagates NaN — a NaN entry is treated as
smaller than every non-NaN entry — and breaks ties by first occurrence).
The external render model is the pointwise batched coordinate-to-intensity
function described by the spec, so one batched query is one application of
`renderAll`.
-/

set_option autoImplicit false

/-- Shallow model of an IEEE double value: finite (exact rational), plus or
minus infinity, or NaN. -/
inductive FVal where
  | fin : ℚ → FVal
  | pinf : FVal
  | ninf : FVal
  | nan : FVal
deriving DecidableEq

/-- IEEE negation. -/
def FVal.neg : FVal → FVal
  | .fin q => .fin (-q)
  | .pinf => .ninf
  | .ninf => .pinf
  | .nan => .nan

/-- IEEE addition (NaN absorbs; opposite infinities give NaN). -/
def FVal.add : FVal → FVal → FVal
  | .nan, _ => .nan
  | _, .nan => .nan
  | .pinf, .ninf => .nan
  | .ninf, .pinf => .nan
  | .pinf, _ => .pinf
  | _, .pinf => .pinf
  | .ninf, _ => .ninf
  | _, .ninf => .ninf
  | .fin a, .fin b => .fin (a + b)

/-- IEEE subtraction, as used by `images - y_hat`. -/
def FVal.sub (a b : FVal) : FVal := a.add b.neg

/-- IEEE squaring, as used by `.pow(2)`. -/
def FVal.sq : FVal → FVal
  | .fin q => .fin (q * q)
  | .pinf => .pinf
  | .ninf => .pinf
  | .nan => .nan

/-- The strict comparison used by `torch.argmin`: NaN propagates through the
minimum, i.e. a NaN entry compares below every non-NaN entry. -/
def FVal.ltb : FVal → FVal → Bool
  | _, .nan => false
  | .nan, _ => true
  | .ninf, .ninf => false
  | .ninf, _ => true
  | _, .ninf => false
  | .fin a, .fin b => decide (a < b)
  | .fin _, .pinf => true
  | .pinf, _ => false

/-- `torch.sum` over the pixel dimensions. -/
def sumF (l : List FVal) : FVal := l.foldl FVal.add (FVal.fin 0)

/-- The per-candidate error of `models.py` lines 96 and 106:
`torch.sum((images - y_hat).pow(2), (-1,-2))` for one image against one
rendered candidate, both flattened to pixel lists. -/
def errOf (img yhat : List FVal) : FVal :=
  sumF (List.zipWith (fun a b => (FVal.sub a b).sq) img yhat)

/-- `torch.argmin(err, 1)` for one row: index of the minimum under
`FVal.ltb` (NaN propagates), ties broken by the first occurrence. -/
def argminTorch : List FVal → ℕ
  | [] => 0
  | [_] => 0
  | e :: f :: rest =>
    let j := argminTorch (f :: rest)
    if FVal.ltb ((f :: rest).getD j FVal.nan) e then j + 1 else 0

/-- Concatenation of a list of lists (`np.concatenate` on a nonempty list of
equally-shaped arrays, and the flattening implicit in batched tensors). -/
def concatAll {α : Type} : List (List α) → List α
  | [] => []
  | xs :: xss => xs ++ concatAll xss

/-- Fuel-driven worker for `chunkExact`; the fuel starts at the list length
and each step consumes at least one element, so the fuel never runs out. -/
def chunkGo {α : Type} (n : ℕ) : ℕ → List α → List (List α)
  | _, [] => []
  | 0, _ :: _ => []
  | Nat.succ fuel, x :: xs => (x :: xs).take n :: chunkGo n fuel ((x :: xs).drop n)

/-- `Tensor.view(-1, n)`: cut a flat list into consecutive chunks of `n`. -/
def chunkExact {α : Type} (n : ℕ) (l : List α) : List (List α) :=
  if n = 0 then [] else chunkGo n l.length l

theorem FVal.ltb_irrefl (a : FVal) : FVal.ltb a a = false := by
  cases a <;> simp [FVal.ltb]

theorem FVal.ltb_asymm {a b : FVal} (h : FVal.ltb a b = true) :
    FVal.ltb b a = false := by
  cases a <;> cases b <;> simp_all [FVal.ltb] <;> exact le_of_lt h

theorem FVal.ltb_trans {a b c : FVal} (h1 : FVal.ltb a b = true)
    (h2 : FVal.ltb b c = true) : FVal.ltb a c = true := by
  cases a <;> cases b <;> cases c <;> simp_all [FVal.ltb]
  exact lt_trans h1 h2

theorem FVal.ltb_total {a b : FVal} (h : FVal.ltb a b = false) :
    a = b ∨ FVal.ltb b a = true := by
  cases a <;> cases b <;> simp_all [FVal.ltb]
  rename_i q q'
  rcases lt_trichotomy q q' with h1 | h1 | h1
  · exact absurd h1 (not_lt.mpr h)
  · exact Or.inl h1
  · exact Or.inr h1

abbrev Vec3 := Fin 3 → ℚ

abbrev Mat3 := Fin 3 → Fin 3 → ℚ

abbrev Quat4 := Fin 4 → ℚ

/-- One row of `lattice @ rot` (`models.py` lines 91 and 102): the row vector
`v` multiplied on the right by the matrix `M`. -/
def vecMulRow (v : Vec3) (M : Mat3) : Vec3 :=
  fun j => v 0 * M 0 j + v 1 * M 1 j + v 2 * M 2 j

/-- `x = self.lattice @ rot`: transform every lattice row by right
multiplication with the candidate rotation. -/
def rotateLattice (lattice : List Vec3) (M : Mat3) : List Vec3 :=
  lattice.map (fun v => vecMulRow v M)

/-- Modelled from the spec: `lie_tools.quaternions_to_SO3` (the `lie_tools`
module is not under `src/`).  Standard unit-quaternion-to-matrix formula with
the input re-normalized to unit norm before conversion; re-normalizing by the
squared norm keeps every entry rational. -/
def quaternions_to_SO3 (q : Quat4) : Mat3 :=
  let n := q 0 * q 0 + q 1 * q 1 + q 2 * q 2 + q 3 * q 3
  let s := if n = 0 then 0 else 2 / n
  ![![1 - s * (q 2 * q 2 + q 3 * q 3), s * (q 1 * q 2 - q 3 * q 0),
      s * (q 1 * q 3 + q 2 * q 0)],
    ![s * (q 1 * q 2 + q 3 * q 0), 1 - s * (q 1 * q 1 + q 3 * q 3),
      s * (q 2 * q 3 - q 1 * q 0)],
    ![s * (q 1 * q 3 - q 2 * q 0), s * (q 2 * q 3 + q 1 * q 0),
      1 - s * (q 1 * q 1 + q 2 * q 2)]]

/-- Modelled from the spec: the `so3_grid` module is not under `src/`.  A
deterministic hierarchical SO(3) grid: the fixed level-0 quaternion list
(`base_SO3_grid`), the flat-index-to-cell decomposition (`get_base_indr`), and
the per-cell neighbor enumeration (`get_neighbor`, returning the child
quaternions together with their `(s2, s1)` cell indices). -/
structure SO3Grid where
  baseQuat : List Quat4
  cellOf : ℕ → ℕ × ℕ
  neighbor : Quat4 → ℕ → ℕ → ℕ → List Quat4 × List (ℕ × ℕ)

/-- The external render model: parameters, the `training` flag checked by the
assert in `opt_theta`, and the batched coordinate-to-intensity function
(applied pointwise to every queried 3-vector). -/
structure RenderModel where
  params : List ℚ
  training : Bool
  render : List ℚ → Vec3 → FVal

/-- The state of a `BNBOpt` instance: grid, model and the fixed coordinate
lattice of an `ny` by `nx` image. -/
structure BNB where
  grid : SO3Grid
  model : RenderModel
  ny : ℕ
  nx : ℕ
  lattice : List Vec3

/-- One batched render-model query: the model evaluated at every lattice point
transformed by every candidate rotation, flattened in candidate-major order
(`y_hat = self.model(x)`). -/
def renderAll (P : BNB) (rots : List Mat3) : List FVal :=
  (concatAll (rots.map (fun R => rotateLattice P.lattice R))).map
    (P.model.render P.model.params)

/-- The rendered image of a single candidate quaternion. -/
def renderQuat (P : BNB) (q : Quat4) : List FVal :=
  (rotateLattice P.lattice (quaternions_to_SO3 q)).map
    (P.model.render P.model.params)

/-- `BNBOpt.eval_base_grid` (`models.py` lines 89-98) in the shape-matched
case: every image has exactly the `ny*nx` pixels of the lattice plane, where
the line-96 subtraction is plain elementwise subtraction.  Returns the number
of batched render-model queries issued together with the per-image argmin
indices (`none` models a raised error).  The render query is issued before any
shape is checked, exactly as in the source: the checks model the
`view(-1, ny, nx)` reshape, the non-empty reduction dimension of
`torch.argmin`, and the per-image pixel count.  Image shapes that differ from
the lattice plane engage PyTorch broadcasting and are modelled by
`eval_base_grid_bc`, which carries the image shape explicitly. -/
def eval_base_grid (P : BNB) (images : List (List FVal)) : ℕ × Option (List ℕ) :=
  let y_all := renderAll P (P.grid.baseQuat.map quaternions_to_SO3)
  let n := P.ny * P.nx
  if 0 < n ∧ y_all.length % n = 0 ∧ chunkExact n y_all ≠ [] ∧
      (∀ img ∈ images, img.length = n) then
    (1, some (images.map (fun img =>
      argminTorch ((chunkExact n y_all).map (fun c => errOf img c)))))
  else
    (1, none)

/-- `BNBOpt.eval_incremental_grid` (`models.py` lines 100-108) in the
shape-matched case (every image has the `ny*nx` pixels of the lattice plane).
The `np.concatenate(quat_for_image)` raises before the model is queried when
the candidate list is empty (zero queries); otherwise one batched query is
issued, `y_hat.view(-1, 8, ny, nx)` groups the rendered candidates into chunks
of 8, and the batch dimension of `images` (B,1,Y,X) against `y_hat` (K,8,Y,X)
requires `K = B` or `K = 1`.  Trailing-dimension mismatches that PyTorch would
broadcast are modelled by `eval_incremental_grid_bc`, which carries the image
shape explicitly. -/
def eval_incremental_grid (P : BNB) (images : List (List FVal))
    (quat : List (List Quat4)) : ℕ × Option (List ℕ) :=
  if quat.isEmpty then (0, none) else
  let allQ := concatAll quat
  let y_all := renderAll P (allQ.map quaternions_to_SO3)
  let n := P.ny * P.nx
  if 0 < n ∧ y_all.length % (8 * n) = 0 then
    let groups := chunkExact 8 (chunkExact n y_all)
    if groups.length = images.length ∧ (∀ img ∈ images, img.length = n) then
      (1, some (List.zipWith
        (fun img g => argminTorch (g.map (fun c => errOf img c))) images groups))
    else if groups.length = 1 ∧ (∀ img ∈ images, img.length = n) then
      (1, some (images.map (fun img =>
        argminTorch ((groups.headD []).map (fun c => errOf img c)))))
    else (1, none)
  else (1, none)

/-- Per-image search state: current best quaternion and `(s2, s1)` cell. -/
abbrev SState := Quat4 × ℕ × ℕ

/-- The refinement loop of `opt_theta` (`models.py` lines 117-124), running
levels `level, level+1, ...` for `remaining` iterations over the batched
per-image states.  Returns accumulated render queries and the final states;
`none` models a raised error (`np.concatenate` on an empty candidate list, a
failed reshape or broadcast, mismatched `np.stack` shapes, or an out-of-range
fancy index). -/
def refineLoop (P : BNB) (images : List (List FVal)) :
    ℕ → ℕ → List SState → ℕ × Option (List SState)
  | _, 0, st => (0, some st)
  | level, Nat.succ r, st =>
    let nbrs := st.map (fun s => P.grid.neighbor s.1 s.2.1 s.2.2 level)
    let quat := nbrs.map (fun x => x.1)
    let ind := nbrs.map (fun x => x.2)
    match eval_incremental_grid P images quat with
    | (q, none) => (q, none)
    | (q, some mins) =>
      if mins.length = st.length ∧
          (∀ l ∈ quat, l.length = (quat.headD []).length) ∧
          (∀ l ∈ ind, l.length = (ind.headD []).length) ∧
          (∀ p ∈ List.zip mins quat, p.1 < p.2.length) ∧
          (∀ p ∈ List.zip mins ind, p.1 < p.2.length) then
        let st' := List.zipWith
          (fun nb i => ((nb.1).getD i (fun _ => 0), (nb.2).getD i (0, 0)))
          nbrs mins
        let next := refineLoop P images (level + 1) r st'
        (q + next.1, next.2)
      else (q, none)

/-- Result of one `opt_theta` call: number of batched render-model queries
issued, the returned rotation matrices (`none` models a raised error), and the
render model as it stands after the call. -/
structure OptOut where
  queries : ℕ
  out : Option (List Mat3)
  model : RenderModel

/-- `BNBOpt.opt_theta` (`models.py` lines 110-125): assert the model is not in
training mode, evaluate the base grid, look up the winning base quaternions
and cells, run `niter` refinement levels starting at level 1, and convert the
final best quaternions to rotation matrices. -/
def opt_theta (P : BNB) (images : List (List FVal)) (niter : ℕ) : OptOut :=
  if P.model.training then ⟨0, none, P.model⟩ else
  match eval_base_grid P images with
  | (q0, none) => ⟨q0, none, P.model⟩
  | (q0, some min_i) =>
    if ∀ i ∈ min_i, i < P.grid.baseQuat.length then
      match refineLoop P images 1 niter (min_i.map (fun i =>
        (P.grid.baseQuat.getD i (fun _ => 0), P.grid.cellOf i))) with
      | (q1, none) => ⟨q0 + q1, none, P.model⟩
      | (q1, some st) =>
        ⟨q0 + q1, some (st.map (fun s => quaternions_to_SO3 s.1)), P.model⟩
    else ⟨q0, none, P.model⟩

/-- Written from the spec's words (section 4.4, step 1): the base stage scores
every base-grid rotation against one image with the unnormalized
sum-of-squared-differences error and selects the per-image arg-min, ties to
the first occurrence. -/
def specBaseIndex (P : BNB) (img : List FVal) : ℕ :=
  argminTorch (P.grid.baseQuat.map (fun q => errOf img (renderQuat P q)))

/-- Written from the spec's words: the level-0 search state of one image —
the winning base quaternion and its `(s2, s1)` cell. -/
def specStart (P : BNB) (img : List FVal) : SState :=
  let i := specBaseIndex P img
  (P.grid.baseQuat.getD i (fun _ => 0), P.grid.cellOf i)

/-- Written from the spec's words (section 4.4, step 2): one refinement step of
one image at one level — score the image's own neighbor candidates, select the
arg-min, and update the best quaternion and cell indices to the winning
child. -/
def specRefineStep (P : BNB) (img : List FVal) (level : ℕ) (s : SState) : SState :=
  let nb := P.grid.neighbor s.1 s.2.1 s.2.2 level
  let j := argminTorch (nb.1.map (fun q => errOf img (renderQuat P q)))
  ((nb.1).getD j (fun _ => 0), (nb.2).getD j (0, 0))

/-- Written from the spec's words: `remaining` refinement steps at levels
`level, level+1, ...` for one image. -/
def specRefineFrom (P : BNB) (img : List FVal) :
    ℕ → ℕ → SState → SState
  | _, 0, s => s
  | level, Nat.succ r, s =>
    specRefineFrom P img (level + 1) r (specRefineStep P img level s)

/-- Written from the spec's words (section 4.4): the whole per-image search —
base stage, refinement levels `1..niter`, and the final quaternion converted
to a rotation matrix. -/
def specSearch (P : BNB) (img : List FVal) (niter : ℕ) : Mat3 :=
  quaternions_to_SO3 (specRefineFrom P img 1 niter (specStart P img)).1

/-- The shape contract of one search call: model in inference mode, a
nonempty base grid, a nondegenerate image plane whose pixel count matches the
lattice, images of that pixel count, and a neighbor enumeration that returns
exactly 8 children with their 8 cell indices. -/
def WellFormed (P : BNB) (images : List (List FVal)) : Prop :=
  P.model.training = false ∧
  0 < P.ny * P.nx ∧
  P.lattice.length = P.ny * P.nx ∧
  P.grid.baseQuat ≠ [] ∧
  (∀ img ∈ images, img.length = P.ny * P.nx) ∧
  (∀ q a b l, (P.grid.neighbor q a b l).1.length = 8 ∧
    (P.grid.neighbor q a b l).2.length = 8)

theorem concatAll_nil {α : Type} : concatAll ([] : List (List α)) = [] := rfl

theorem concatAll_cons {α : Type} (xs : List α) (xss : List (List α)) :
    concatAll (xs :: xss) = xs ++ concatAll xss := rfl

theorem map_concatAll {α β : Type} (f : α → β) (xss : List (List α)) :
    (concatAll xss).map f = concatAll (xss.map (List.map f)) := by
  induction xss with
  | nil => rfl
  | cons xs xss ih => simp [concatAll_cons, ih]

theorem concatAll_length {α : Type} (n : ℕ) (xss : List (List α))
    (h : ∀ xs ∈ xss, xs.length = n) :
    (concatAll xss).length = xss.length * n := by
  induction xss with
  | nil => simp [concatAll_nil]
  | cons xs xss ih =>
    have hx : xs.length = n := h xs (List.mem_cons_self xs xss)
    have ht : ∀ ys ∈ xss, ys.length = n := fun ys hy => h ys (List.mem_cons_of_mem xs hy)
    simp [concatAll_cons, hx, ih ht]
    ring

theorem chunkExact_nil {α : Type} (n : ℕ) :
    chunkExact n ([] : List α) = [] := by
  rw [chunkExact]
  split
  · rfl
  · rfl

theorem chunkGo_concatAll {α : Type} (n : ℕ) (hn : 0 < n) :
    ∀ (xss : List (List α)) (fuel : ℕ), (∀ xs ∈ xss, xs.length = n) →
      (concatAll xss).length ≤ fuel → chunkGo n fuel (concatAll xss) = xss := by
  intro xss
  induction xss with
  | nil =>
    intro fuel _ _
    cases fuel with
    | zero => rfl
    | succ f => rfl
  | cons xs xss ih =>
    intro fuel h hfuel
    have hx : xs.length = n := h xs (List.mem_cons_self xs xss)
    have ht : ∀ ys ∈ xss, ys.length = n :=
      fun ys hy => h ys (List.mem_cons_of_mem xs hy)
    have hlen : (concatAll (xs :: xss)).length = n + (concatAll xss).length := by
      rw [concatAll_cons, List.length_append, hx]
    cases fuel with
    | zero =>
      rw [hlen] at hfuel
      omega
    | succ f =>
      rw [concatAll_cons]
      cases hxs : xs with
      | nil =>
        rw [hxs] at hx
        simp at hx
        omega
      | cons a t =>
        rw [hxs] at hx
        rw [List.cons_append, chunkGo]
        have htake : (a :: (t ++ concatAll xss)).take n = a :: t := by
          rw [← List.cons_append, ← hx]
          exact List.take_left _ _
        have hdrop : (a :: (t ++ concatAll xss)).drop n = concatAll xss := by
          rw [← List.cons_append, ← hx]
          exact List.drop_left _ _
        rw [htake, hdrop]
        rw [ih f ht (by rw [hlen] at hfuel; omega)]

theorem chunkExact_concatAll {α : Type} (n : ℕ) (hn : 0 < n)
    (xss : List (List α)) (h : ∀ xs ∈ xss, xs.length = n) :
    chunkExact n (concatAll xss) = xss := by
  rw [chunkExact, if_neg (by omega)]
  exact chunkGo_concatAll n hn xss (concatAll xss).length h le_rfl

theorem argminTorch_lt_length (es : List FVal) (h : es ≠ []) :
    argminTorch es < es.length := by
  induction es with
  | nil => exact absurd rfl h
  | cons e tail ih =>
    cases tail with
    | nil => simp [argminTorch]
    | cons f rest =>
      have ht : (f :: rest) ≠ [] := by simp
      have := ih ht
      rw [argminTorch]
      split
      · simpa using Nat.succ_lt_succ this
      · simp

theorem argminTorch_min (es : List FVal) (h : es ≠ []) :
    ∀ j, j < es.length →
      FVal.ltb (es.getD j FVal.nan) (es.getD (argminTorch es) FVal.nan) = false := by
  induction es with
  | nil => exact absurd rfl h
  | cons e tail ih =>
    cases tail with
    | nil =>
      intro j hj
      have hj0 : j = 0 := by
        simp at hj
        omega
      subst hj0
      simp [argminTorch, FVal.ltb_irrefl]
    | cons f rest =>
      have ht : (f :: rest) ≠ [] := by simp
      have ihm := ih ht
      intro j hj
      rw [argminTorch]
      split
      · rename_i hlt
        rw [List.getD_cons_succ]
        cases j with
        | zero =>
          rw [List.getD_cons_zero]
          exact FVal.ltb_asymm hlt
        | succ k =>
          rw [List.getD_cons_succ]
          exact ihm k (by simpa using hj)
      · rename_i hnlt
        rw [List.getD_cons_zero]
        cases j with
        | zero => simp [FVal.ltb_irrefl]
        | succ k =>
          rw [List.getD_cons_succ]
          have hns : FVal.ltb ((f :: rest).getD (argminTorch (f :: rest)) FVal.nan) e = false := by
            simpa using hnlt
          have hk := ihm k (by simpa using hj)
          rcases FVal.ltb_total hns with heq | hgt
          · rw [← heq]
            exact hk
          · cases hc : FVal.ltb ((f :: rest).getD k FVal.nan) e with
            | false => rfl
            | true =>
              have := FVal.ltb_trans hc hgt
              rw [this] at hk
              exact absurd hk (by simp)

theorem argminTorch_first (es : List FVal) (h : es ≠ []) :
    ∀ j, j < argminTorch es →
      FVal.ltb (es.getD (argminTorch es) FVal.nan) (es.getD j FVal.nan) = true := by
  induction es with
  | nil => exact absurd rfl h
  | cons e tail ih =>
    cases tail with
    | nil =>
      intro j hj
      simp [argminTorch] at hj
    | cons f rest =>
      have ht : (f :: rest) ≠ [] := by simp
      have ihf := ih ht
      intro j hj
      rw [argminTorch]
      rw [argminTorch] at hj
      split
      · rename_i hlt
        rw [List.getD_cons_succ]
        cases j with
        | zero =>
          rw [List.getD_cons_zero]
          exact hlt
        | succ k =>
          rw [List.getD_cons_succ]
          have hk : k < argminTorch (f :: rest) := by
            split at hj
            · omega
            · rename_i hx
              exact absurd hlt hx
          exact ihf k hk
      · rename_i hnlt
        split at hj
        · rename_i hx
          exact absurd hx hnlt
        · omega

theorem zipWith_map_right' {α β γ δ : Type} (f : α → γ → δ) (g : β → γ)
    (as : List α) (bs : List β) :
    List.zipWith f as (bs.map g) = List.zipWith (fun a b => f a (g b)) as bs := by
  induction as generalizing bs with
  | nil => simp
  | cons a as ih =>
    cases bs with
    | nil => simp
    | cons b bs => simp [ih]

theorem zipWith_map_left' {α β γ δ : Type} (f : γ → β → δ) (g : α → γ)
    (as : List α) (bs : List β) :
    List.zipWith f (as.map g) bs = List.zipWith (fun a b => f (g a) b) as bs := by
  induction as generalizing bs with
  | nil => simp
  | cons a as ih =>
    cases bs with
    | nil => simp
    | cons b bs => simp [ih]

theorem zipWith_self_map {α β γ : Type} (f : α → β → γ) (g : α → β)
    (as : List α) :
    List.zipWith f as (as.map g) = as.map (fun a => f a (g a)) := by
  induction as with
  | nil => simp
  | cons a as ih => simp [ih]

theorem zipWith_left_comm {α β γ δ : Type} (h : β → γ → δ) (g : α → β → γ)
    (as : List α) (bs : List β) :
    List.zipWith h bs (List.zipWith g as bs) =
      List.zipWith (fun a b => h b (g a b)) as bs := by
  induction as generalizing bs with
  | nil => simp
  | cons a as ih =>
    cases bs with
    | nil => simp
    | cons b bs => simp [ih]

theorem zipWith_fuse {α β γ δ : Type} (f : α → γ → δ) (g : α → β → γ)
    (as : List α) (bs : List β) :
    List.zipWith f as (List.zipWith g as bs) =
      List.zipWith (fun a b => f a (g a b)) as bs := by
  induction as generalizing bs with
  | nil => simp
  | cons a as ih =>
    cases bs with
    | nil => simp
    | cons b bs => simp [ih]

theorem zipWith_mem {α β γ : Type} (f : α → β → γ) (as : List α) (bs : List β)
    (x : γ) (hx : x ∈ List.zipWith f as bs) :
    ∃ a b, a ∈ as ∧ b ∈ bs ∧ x = f a b := by
  induction as generalizing bs with
  | nil => simp at hx
  | cons a as ih =>
    cases bs with
    | nil => simp at hx
    | cons b bs =>
      simp only [List.zipWith_cons_cons, List.mem_cons] at hx
      rcases hx with hx | hx
      · exact ⟨a, b, by simp, by simp, hx⟩
      · obtain ⟨a', b', ha, hb, he⟩ := ih bs hx
        exact ⟨a', b', by simp [ha], by simp [hb], he⟩

theorem renderAll_concat (P : BNB) (qs : List Quat4) :
    renderAll P (qs.map quaternions_to_SO3) =
      concatAll (qs.map (fun q => renderQuat P q)) := by
  unfold renderAll
  rw [map_concatAll]
  simp only [List.map_map]
  rfl

theorem renderQuat_length (P : BNB) (q : Quat4) :
    (renderQuat P q).length = P.lattice.length := by
  simp [renderQuat, rotateLattice]

theorem eval_base_grid_eq (P : BNB) (images : List (List FVal))
    (h : WellFormed P images) :
    eval_base_grid P images =
      (1, some (images.map (fun img => specBaseIndex P img))) := by
  obtain ⟨htr, hn, hlat, hbq, himg, hnb⟩ := h
  have hy : renderAll P (P.grid.baseQuat.map quaternions_to_SO3) =
      concatAll (P.grid.baseQuat.map (fun q => renderQuat P q)) :=
    renderAll_concat P P.grid.baseQuat
  have hlens : ∀ ys ∈ P.grid.baseQuat.map (fun q => renderQuat P q),
      ys.length = P.ny * P.nx := by
    intro ys hys
    rw [List.mem_map] at hys
    obtain ⟨q, _, rfl⟩ := hys
    rw [renderQuat_length, hlat]
  have hchunk : chunkExact (P.ny * P.nx)
      (renderAll P (P.grid.baseQuat.map quaternions_to_SO3)) =
      P.grid.baseQuat.map (fun q => renderQuat P q) := by
    rw [hy]
    exact chunkExact_concatAll _ hn _ hlens
  have hylen : (renderAll P (P.grid.baseQuat.map quaternions_to_SO3)).length =
      P.grid.baseQuat.length * (P.ny * P.nx) := by
    rw [hy, concatAll_length _ _ hlens, List.length_map]
  rw [eval_base_grid]
  split
  · simp only [hchunk, List.map_map]
    rfl
  · rename_i hc
    exfalso
    apply hc
    refine ⟨hn, ?_, ?_, himg⟩
    · rw [hylen]
      exact Nat.mul_mod_left _ _
    · rw [hchunk]
      simp only [ne_eq, List.map_eq_nil_iff]
      exact hbq

theorem eval_incremental_grid_eq (P : BNB) (images : List (List FVal))
    (quat : List (List Quat4))
    (hq : quat ≠ [])
    (hlen : quat.length = images.length)
    (h8 : ∀ l ∈ quat, l.length = 8)
    (hn : 0 < P.ny * P.nx)
    (hlat : P.lattice.length = P.ny * P.nx)
    (himg : ∀ img ∈ images, img.length = P.ny * P.nx) :
    eval_incremental_grid P images quat =
      (1, some (List.zipWith (fun img qs =>
        argminTorch (qs.map (fun q => errOf img (renderQuat P q)))) images quat)) := by
  have hqe : quat.isEmpty = false := by
    cases quat with
    | nil => exact absurd rfl hq
    | cons l ls => rfl
  have hy : renderAll P ((concatAll quat).map quaternions_to_SO3) =
      concatAll ((concatAll quat).map (fun q => renderQuat P q)) :=
    renderAll_concat P (concatAll quat)
  have hlens : ∀ ys ∈ (concatAll quat).map (fun q => renderQuat P q),
      ys.length = P.ny * P.nx := by
    intro ys hys
    rw [List.mem_map] at hys
    obtain ⟨q, _, rfl⟩ := hys
    rw [renderQuat_length, hlat]
  have hchunk : chunkExact (P.ny * P.nx)
      (renderAll P ((concatAll quat).map quaternions_to_SO3)) =
      (concatAll quat).map (fun q => renderQuat P q) := by
    rw [hy]
    exact chunkExact_concatAll _ hn _ hlens
  have hmapc : (concatAll quat).map (fun q => renderQuat P q) =
      concatAll (quat.map (List.map (fun q => renderQuat P q))) :=
    map_concatAll _ _
  have hlens8 : ∀ ys ∈ quat.map (List.map (fun q => renderQuat P q)),
      ys.length = 8 := by
    intro ys hys
    rw [List.mem_map] at hys
    obtain ⟨l, hl, rfl⟩ := hys
    rw [List.length_map]
    exact h8 l hl
  have hgroups : chunkExact 8 ((concatAll quat).map (fun q => renderQuat P q)) =
      quat.map (List.map (fun q => renderQuat P q)) := by
    rw [hmapc]
    exact chunkExact_concatAll _ (by omega) _ hlens8
  have hallQlen : (concatAll quat).length = quat.length * 8 :=
    concatAll_length _ _ h8
  have hylen : (renderAll P ((concatAll quat).map quaternions_to_SO3)).length =
      quat.length * (8 * (P.ny * P.nx)) := by
    rw [hy, concatAll_length _ _ hlens, List.length_map, hallQlen]
    ring
  rw [eval_incremental_grid]
  simp only [hqe, Bool.false_eq_true, if_false]
  split
  · split
    · simp only [hchunk, hgroups]
      rw [zipWith_map_right']
      simp only [List.map_map]
      rfl
    · rename_i hc
      exfalso
      apply hc
      constructor
      · rw [hchunk, hgroups, List.length_map]
        exact hlen
      · exact himg
  · rename_i hc
    exfalso
    apply hc
    refine ⟨hn, ?_⟩
    rw [hylen]
    exact Nat.mul_mod_left _ _

theorem zipWith_const_right {α β : Type} (as : List α) (bs : List β)
    (h : bs.length ≤ as.length) :
    List.zipWith (fun _ b => b) as bs = bs := by
  induction as generalizing bs with
  | nil =>
    cases bs with
    | nil => rfl
    | cons b bs => simp at h
  | cons a as ih =>
    cases bs with
    | nil => rfl
    | cons b bs =>
      simp only [List.zipWith_cons_cons]
      rw [ih bs (by simpa using h)]

theorem refineLoop_eq (P : BNB) (images : List (List FVal))
    (hn : 0 < P.ny * P.nx)
    (hlat : P.lattice.length = P.ny * P.nx)
    (himg : ∀ img ∈ images, img.length = P.ny * P.nx)
    (hnb : ∀ q a b l, (P.grid.neighbor q a b l).1.length = 8 ∧
      (P.grid.neighbor q a b l).2.length = 8)
    (hB : images ≠ []) :
    ∀ (r level : ℕ) (st : List SState), st.length = images.length →
      refineLoop P images level r st =
        (r, some (List.zipWith
          (fun img s => specRefineFrom P img level r s) images st)) := by
  intro r
  induction r with
  | zero =>
    intro level st hst
    rw [refineLoop]
    have : List.zipWith (fun img (s : SState) => specRefineFrom P img level 0 s)
        images st = List.zipWith (fun _ s => s) images st := rfl
    rw [this, zipWith_const_right images st (le_of_eq hst)]
  | succ r ih =>
    intro level st hst
    have hstne : st ≠ [] := by
      intro he
      rw [he] at hst
      exact hB (List.length_eq_zero.mp hst.symm)
    rw [refineLoop]
    set nbq : SState → List Quat4 :=
      fun s => (P.grid.neighbor s.1 s.2.1 s.2.2 level).1 with hnbq
    set nbi : SState → List (ℕ × ℕ) :=
      fun s => (P.grid.neighbor s.1 s.2.1 s.2.2 level).2 with hnbi
    have hquat : ((st.map (fun s => P.grid.neighbor s.1 s.2.1 s.2.2 level)).map
        (fun x => x.1)) = st.map nbq := by
      rw [List.map_map]
      rfl
    have hind : ((st.map (fun s => P.grid.neighbor s.1 s.2.1 s.2.2 level)).map
        (fun x => x.2)) = st.map nbi := by
      rw [List.map_map]
      rfl
    have hq : st.map nbq ≠ [] := by
      simp only [ne_eq, List.map_eq_nil_iff]
      exact hstne
    have hlen : (st.map nbq).length = images.length := by
      rw [List.length_map, hst]
    have h8 : ∀ l ∈ st.map nbq, l.length = 8 := by
      intro l hl
      rw [List.mem_map] at hl
      obtain ⟨s, _, rfl⟩ := hl
      exact (hnb s.1 s.2.1 s.2.2 level).1
    have h8i : ∀ l ∈ st.map nbi, l.length = 8 := by
      intro l hl
      rw [List.mem_map] at hl
      obtain ⟨s, _, rfl⟩ := hl
      exact (hnb s.1 s.2.1 s.2.2 level).2
    have heval := eval_incremental_grid_eq P images (st.map nbq) hq hlen h8 hn hlat himg
    set mins := List.zipWith (fun img qs =>
      argminTorch (qs.map (fun q => errOf img (renderQuat P q)))) images (st.map nbq)
      with hmins
    have hminmem : ∀ i ∈ mins, i < 8 := by
      intro i hi
      obtain ⟨img, qs, _, hqs, rfl⟩ := zipWith_mem _ images (st.map nbq) i hi
      have hql : qs.length = 8 := h8 qs hqs
      have hne : qs.map (fun q => errOf img (renderQuat P q)) ≠ [] := by
        simp only [ne_eq, List.map_eq_nil_iff]
        intro he
        rw [he] at hql
        simp at hql
      have := argminTorch_lt_length _ hne
      rw [List.length_map, hql] at this
      exact this
    have hminlen : mins.length = st.length := by
      rw [hmins, List.length_zipWith, List.length_map, hst, min_self]
    rw [hquat, hind]
    simp only [heval]
    have hcond : mins.length = st.length ∧
        (∀ l ∈ st.map nbq, l.length = ((st.map nbq).headD []).length) ∧
        (∀ l ∈ st.map nbi, l.length = ((st.map nbi).headD []).length) ∧
        (∀ p ∈ List.zip mins (st.map nbq), p.1 < p.2.length) ∧
        (∀ p ∈ List.zip mins (st.map nbi), p.1 < p.2.length) := by
      refine ⟨hminlen, ?_, ?_, ?_, ?_⟩
      · intro l hl
        cases hc : st.map nbq with
        | nil => rw [hc] at hl; simp at hl
        | cons l0 ls =>
          have h0 : l0 ∈ st.map nbq := by rw [hc]; exact List.mem_cons_self l0 ls
          simp only [List.headD_cons]
          rw [h8 l hl, h8 l0 h0]
      · intro l hl
        cases hc : st.map nbi with
        | nil => rw [hc] at hl; simp at hl
        | cons l0 ls =>
          have h0 : l0 ∈ st.map nbi := by rw [hc]; exact List.mem_cons_self l0 ls
          simp only [List.headD_cons]
          rw [h8i l hl, h8i l0 h0]
      · intro p hp
        have hmem := List.of_mem_zip hp
        rw [h8 p.2 hmem.2]
        exact hminmem p.1 hmem.1
      · intro p hp
        have hmem := List.of_mem_zip hp
        rw [h8i p.2 hmem.2]
        exact hminmem p.1 hmem.1
    rw [if_pos hcond]
    have hst' : (List.zipWith
        (fun nb i => ((nb.1).getD i (fun _ => (0 : ℚ)), (nb.2).getD i (0, 0)))
        (st.map (fun s => P.grid.neighbor s.1 s.2.1 s.2.2 level)) mins) =
        List.zipWith (fun img s => specRefineStep P img level s) images st := by
      rw [zipWith_map_left']
      rw [hmins, zipWith_map_right']
      rw [zipWith_left_comm]
      rfl
    rw [hst']
    have hlen' : (List.zipWith (fun img s => specRefineStep P img level s)
        images st).length = images.length := by
      rw [List.length_zipWith, hst, min_self]
    rw [ih (level + 1) _ hlen']
    rw [zipWith_fuse]
    simp [Nat.add_comm]
    rfl

theorem opt_theta_eq (P : BNB) (images : List (List FVal)) (niter : ℕ)
    (h : WellFormed P images) (hB : images ≠ []) :
    opt_theta P images niter =
      ⟨1 + niter, some (images.map (fun img => specSearch P img niter)), P.model⟩ := by
  obtain ⟨htr, hn, hlat, hbq, himg, hnb⟩ := h
  have hbase := eval_base_grid_eq P images ⟨htr, hn, hlat, hbq, himg, hnb⟩
  have hall : ∀ i ∈ images.map (fun img => specBaseIndex P img),
      i < P.grid.baseQuat.length := by
    intro i hi
    rw [List.mem_map] at hi
    obtain ⟨img, _, rfl⟩ := hi
    have hne : P.grid.baseQuat.map (fun q => errOf img (renderQuat P q)) ≠ [] := by
      simp only [ne_eq, List.map_eq_nil_iff]
      exact hbq
    have hlt := argminTorch_lt_length _ hne
    rw [List.length_map] at hlt
    exact hlt
  have hst0 : ((images.map (fun img => specBaseIndex P img)).map (fun i =>
      (P.grid.baseQuat.getD i (fun _ => (0 : ℚ)), P.grid.cellOf i))) =
      images.map (fun img => specStart P img) := by
    rw [List.map_map]
    rfl
  have hlen0 : (images.map (fun img => specStart P img)).length = images.length :=
    List.length_map _ _
  have hloop := refineLoop_eq P images hn hlat himg hnb hB niter 1
    (images.map (fun img => specStart P img)) hlen0
  rw [opt_theta]
  simp only [htr, Bool.false_eq_true, if_false]
  simp only [hbase]
  rw [if_pos hall]
  simp only [hst0, hloop]
  rw [zipWith_self_map, List.map_map]
  rfl

/-- Identity quaternion `(1, 0, 0, 0)`. -/
def qId : Quat4 := ![1, 0, 0, 0]

/-- Quaternion `(0, 1, 0, 0)`: rotation by pi about the x axis. -/
def qX : Quat4 := ![0, 1, 0, 0]

/-- A small concrete hierarchical grid (two base cells, each neighborhood the
8-fold repetition of the parent), used to evaluate the search on concrete
inputs. -/
def grid0 : SO3Grid :=
  ⟨[qId, qX], fun i => (i, 0),
    fun q a b _ => (List.replicate 8 q, List.replicate 8 (a, b))⟩

/-- The single lattice point `(0, 1, 0)` of a 1-by-1 image plane. -/
def v0 : Vec3 := ![0, 1, 0]

/-- A render model that returns intensity 0 everywhere. -/
def model0 : RenderModel := ⟨[], false, fun _ _ => FVal.fin 0⟩

/-- A render model returning NaN on the half-space `y < 0` (hit exactly by the
lattice transformed by the `qX` candidate) and 0 elsewhere. -/
def modelNaN : RenderModel :=
  ⟨[], false, fun _ w => if w 1 < 0 then FVal.nan else FVal.fin 0⟩

/-- The all-zero render model with the `training` flag still set. -/
def modelTrain : RenderModel := ⟨[], true, fun _ _ => FVal.fin 0⟩

/-- Concrete 1-by-1 search instance over `grid0` with the constant model. -/
def P0 : BNB := ⟨grid0, model0, 1, 1, [v0]⟩

/-- Concrete 1-by-1 search instance whose render model emits NaN for the `qX`
candidate. -/
def P2 : BNB := ⟨grid0, modelNaN, 1, 1, [v0]⟩

/-- Concrete 1-by-1 search instance with a model in training mode. -/
def P3 : BNB := ⟨grid0, modelTrain, 1, 1, [v0]⟩

/-- A concrete 1-pixel image. -/
def img0 : List FVal := [FVal.fin 0]

/-- A second concrete 1-pixel image. -/
def img1 : List FVal := [FVal.fin 1]

theorem wf_P0_img0 : WellFormed P0 [img0] := by
  refine ⟨rfl, by decide, rfl, by simp [P0, grid0], ?_, ?_⟩
  · intro img hi
    simp only [List.mem_singleton] at hi
    subst hi
    rfl
  · intro q a b l
    constructor <;> simp [P0, grid0]

theorem wf_P0_img1 : WellFormed P0 [img1] := by
  refine ⟨rfl, by decide, rfl, by simp [P0, grid0], ?_, ?_⟩
  · intro img hi
    simp only [List.mem_singleton] at hi
    subst hi
    rfl
  · intro q a b l
    constructor <;> simp [P0, grid0]

theorem wf_P0_nil : WellFormed P0 [] := by
  refine ⟨rfl, by decide, rfl, by simp [P0, grid0], ?_, ?_⟩
  · intro img hi
    simp at hi
  · intro q a b l
    constructor <;> simp [P0, grid0]

/-- C1: for every image batch of size B >= 1 and every niter >= 0, `opt_theta`
first scores every base-grid rotation against every image with the
unnormalized sum-of-squared-differences error and selects the per-image
arg-min base candidate, then performs exactly `niter` refinement iterations at
levels 1..niter — each selecting per-image the arg-min among that image's own
neighbor candidates and updating its best quaternion and cell indices — and
finally returns, for each image, the final best quaternion converted to a
rotation matrix: the batched code equals the per-image `specSearch` written
from the spec's narrative, issuing exactly `1 + niter` batched render
queries. -/
theorem C1_opt_theta_follows_spec (P : BNB) (images : List (List FVal))
    (niter : ℕ) (h : WellFormed P images) (hB : images ≠ []) :
    (opt_theta P images niter).out =
      some (images.map (fun img => specSearch P img niter)) ∧
    (opt_theta P images niter).queries = 1 + niter := by
  rw [opt_theta_eq P images niter h hB]
  exact ⟨rfl, rfl⟩

/-- Witness for C1 at a concrete well-formed instance with B = 1,
niter = 2. -/
theorem C1_witness :
    (opt_theta P0 [img0] 2).out =
      some ([img0].map (fun img => specSearch P0 img 2)) ∧
    (opt_theta P0 [img0] 2).queries = 1 + 2 :=
  C1_opt_theta_follows_spec P0 [img0] 2 wf_P0_img0 (by simp)

/-- C5: in both stages the selection is `argminTorch`, which returns an index
in range whose error is minimal (no other candidate compares strictly below
it) and which is the first occurrence of the minimum: every strictly earlier
index has a strictly larger error.  The selection is a pure function of the
error list — deterministic, not randomized. -/
theorem C5_argmin_first_occurrence (es : List FVal) (h : es ≠ []) :
    argminTorch es < es.length ∧
    (∀ j, j < es.length →
      FVal.ltb (es.getD j FVal.nan) (es.getD (argminTorch es) FVal.nan) = false) ∧
    (∀ j, j < argminTorch es →
      FVal.ltb (es.getD (argminTorch es) FVal.nan) (es.getD j FVal.nan) = true) :=
  ⟨argminTorch_lt_length es h, argminTorch_min es h, argminTorch_first es h⟩

/-- Witness for C5 on a tied error list `[1, 0, 0]`: the selected index is in
range and strictly beats the entry at index 0, i.e. the tie at value 0 was
broken toward the first occurrence. -/
theorem C5_witness :
    argminTorch [FVal.fin 1, FVal.fin 0, FVal.fin 0] <
      ([FVal.fin 1, FVal.fin 0, FVal.fin 0] : List FVal).length ∧
    FVal.ltb (([FVal.fin 1, FVal.fin 0, FVal.fin 0] : List FVal).getD
        (argminTorch [FVal.fin 1, FVal.fin 0, FVal.fin 0]) FVal.nan)
      (([FVal.fin 1, FVal.fin 0, FVal.fin 0] : List FVal).getD 0 FVal.nan) = true :=
  ⟨(C5_argmin_first_occurrence [FVal.fin 1, FVal.fin 0, FVal.fin 0] (by decide)).1,
   (C5_argmin_first_occurrence [FVal.fin 1, FVal.fin 0, FVal.fin 0] (by decide)).2.2
     0 (by decide)⟩

theorem opt_theta_model (P : BNB) (images : List (List FVal)) (niter : ℕ) :
    (opt_theta P images niter).model = P.model := by
  rw [opt_theta]
  split
  · rfl
  · split
    · rfl
    · split
      · split
        · rfl
        · rfl
      · rfl

/-- C8: a search call never touches the render model: the model (parameters
and training flag) after `opt_theta` is exactly the model before, and the
`assert not self.model.training` guard makes every call that reaches the
render model run in inference mode — a model still in training mode fails the
assert and produces no result. -/
theorem C8_model_unchanged (P : BNB) (images : List (List FVal)) (niter : ℕ) :
    (opt_theta P images niter).model = P.model ∧
    (P.model.training = true → (opt_theta P images niter).out = none) := by
  refine ⟨opt_theta_model P images niter, ?_⟩
  intro ht
  rw [opt_theta, if_pos ht]

/-- Witness for C8 on a concrete model in training mode: the call aborts with
no output and the model comes back unchanged. -/
theorem C8_witness :
    (opt_theta P3 [img0] 5).model = P3.model ∧
    (opt_theta P3 [img0] 5).out = none :=
  ⟨(C8_model_unchanged P3 [img0] 5).1, (C8_model_unchanged P3 [img0] 5).2 rfl⟩

/-- C6: searching the concatenation of two nonempty image batches yields, per
image, exactly the per-image `specSearch` result, so it agrees image-by-image
with searching each batch separately: at every level each image is scored only
against its own candidates, and search commutes with batch concatenation. -/
theorem C6_batch_independence (P : BNB) (b1 b2 : List (List FVal)) (niter : ℕ)
    (h1 : WellFormed P b1) (h2 : WellFormed P b2)
    (hb1 : b1 ≠ []) (hb2 : b2 ≠ []) :
    (opt_theta P (b1 ++ b2) niter).out =
      some (b1.map (fun img => specSearch P img niter) ++
        b2.map (fun img => specSearch P img niter)) ∧
    (opt_theta P b1 niter).out = some (b1.map (fun img => specSearch P img niter)) ∧
    (opt_theta P b2 niter).out = some (b2.map (fun img => specSearch P img niter)) := by
  obtain ⟨htr, hn, hlat, hbq, himg1, hnb⟩ := h1
  obtain ⟨_, _, _, _, himg2, _⟩ := h2
  have hw : WellFormed P (b1 ++ b2) := by
    refine ⟨htr, hn, hlat, hbq, ?_, hnb⟩
    intro img hi
    rcases List.mem_append.mp hi with hi | hi
    · exact himg1 img hi
    · exact himg2 img hi
  have hb12 : b1 ++ b2 ≠ [] := by
    intro he
    exact hb1 (List.append_eq_nil.mp he).1
  refine ⟨?_, ?_, ?_⟩
  · rw [opt_theta_eq P (b1 ++ b2) niter hw hb12]
    rw [List.map_append]
  · rw [opt_theta_eq P b1 niter ⟨htr, hn, hlat, hbq, himg1, hnb⟩ hb1]
  · rw [opt_theta_eq P b2 niter ⟨htr, hn, hlat, hbq, himg2, hnb⟩ hb2]

/-- Witness for C6 on the concatenation of two concrete one-image batches. -/
theorem C6_witness :
    (opt_theta P0 ([img0] ++ [img1]) 1).out =
      some ([img0].map (fun img => specSearch P0 img 1) ++
        [img1].map (fun img => specSearch P0 img 1)) :=
  (C6_batch_independence P0 [img0] [img1] 1 wf_P0_img0 wf_P0_img1
    (by simp) (by simp)).1

theorem FVal.ltb_pinf {e : FVal} (h : e ≠ FVal.pinf) :
    FVal.ltb e FVal.pinf = true := by
  cases e <;> simp_all [FVal.ltb]

/-- C2 counterexample: with the concrete render model `modelNaN`, the `qX`
candidate's error against `img0` is NaN while the `qId` candidate's error is
the finite 0, yet `eval_base_grid` selects index 1 — the NaN candidate — as
the per-image arg-min.  The code never converts a NaN error to +infinity:
`torch.argmin` propagates NaN, so a NaN candidate is selected in preference to
a finite one, refuting the claim that a candidate with non-finite error is
never selected. -/
theorem wf_P2_img0 : WellFormed P2 [img0] := by
  refine ⟨rfl, by decide, rfl, by simp [P2, grid0], ?_, ?_⟩
  · intro img hi
    simp only [List.mem_singleton] at hi
    subst hi
    rfl
  · intro q a b l
    constructor <;> simp [P2, grid0]

theorem renderQuat_P2_qId : renderQuat P2 qId = [FVal.fin 0] := by
  norm_num [renderQuat, P2, modelNaN, rotateLattice, vecMulRow,
    quaternions_to_SO3, qId, v0]

theorem renderQuat_P2_qX : renderQuat P2 qX = [FVal.nan] := by
  norm_num [renderQuat, P2, modelNaN, rotateLattice, vecMulRow,
    quaternions_to_SO3, qX, v0]

theorem errOf_P2_qId : errOf img0 (renderQuat P2 qId) = FVal.fin 0 := by
  rw [renderQuat_P2_qId]
  norm_num [errOf, sumF, img0, FVal.sub, FVal.add, FVal.neg, FVal.sq]

theorem errOf_P2_qX : errOf img0 (renderQuat P2 qX) = FVal.nan := by
  rw [renderQuat_P2_qX]
  simp [errOf, sumF, img0, FVal.sub, FVal.add, FVal.neg, FVal.sq]

theorem C2_counterexample :
    errOf img0 (renderQuat P2 qX) = FVal.nan ∧
    errOf img0 (renderQuat P2 qId) = FVal.fin 0 ∧
    (eval_base_grid P2 [img0]).2 = some [1] := by
  refine ⟨errOf_P2_qX, errOf_P2_qId, ?_⟩
  rw [eval_base_grid_eq P2 [img0] wf_P2_img0]
  simp only [List.map_cons, List.map_nil, specBaseIndex]
  have hbq : P2.grid.baseQuat = [qId, qX] := rfl
  rw [hbq]
  simp only [List.map_cons, List.map_nil, errOf_P2_qId, errOf_P2_qX]
  decide

/-- C2 (amended): a candidate whose error is +infinity is never the selected
arg-min as long as any candidate's error differs from +infinity, and
non-finite errors never abort the search — under the shape contract
`eval_base_grid` still returns an index for every image whatever values the
render model produces.  (A NaN error however is not treated as +infinity: it
propagates through `torch.argmin` and is selected, see the counterexample.) -/
theorem C2_amended_nonfinite (es : List FVal) (h : es ≠ [])
    (hne : ∃ e ∈ es, e ≠ FVal.pinf) :
    es.getD (argminTorch es) FVal.nan ≠ FVal.pinf ∧
    (∀ P images, WellFormed P images →
      ∃ mins, eval_base_grid P images = (1, some mins)) := by
  constructor
  · intro hp
    obtain ⟨e, he, hep⟩ := hne
    obtain ⟨k, hk, hek⟩ := List.mem_iff_getElem.mp he
    have hmin := argminTorch_min es h k hk
    have hgd : es.getD k FVal.nan = e := by
      rw [List.getD_eq_getElem es FVal.nan hk]
      exact hek
    rw [hgd, hp] at hmin
    rw [FVal.ltb_pinf hep] at hmin
    exact absurd hmin (by simp)
  · intro P images hw
    exact ⟨_, eval_base_grid_eq P images hw⟩

/-- Witness for C2 (amended) on the concrete error list `[+inf, 3]`: the
selected entry is not +infinity. -/
theorem C2_witness :
    ([FVal.pinf, FVal.fin 3] : List FVal).getD
      (argminTorch [FVal.pinf, FVal.fin 3]) FVal.nan ≠ FVal.pinf :=
  (C2_amended_nonfinite [FVal.pinf, FVal.fin 3] (by decide)
    ⟨FVal.fin 3, by decide, by decide⟩).1

/-- C3 counterexample: on the concrete well-formed instance `P0`, searching
the empty batch with one refinement iteration raises (the
`np.concatenate(quat_for_image)` of an empty candidate list) instead of
returning the empty output the claim promises for every `niter >= 0`. -/
theorem C3_counterexample :
    (opt_theta P0 [] 1).out = none ∧ (opt_theta P0 [] 1).out ≠ some [] := by
  constructor
  · decide
  · decide

/-- C3 (amended): with an empty image batch the search is a degenerate no-op
only for `niter = 0`, where it returns the empty output; for every
`niter >= 1` the first refinement step fails, because `np.concatenate` of the
empty per-image candidate list raises before the render model is queried. -/
theorem C3_empty_batch (P : BNB) (h : WellFormed P []) :
    (opt_theta P [] 0).out = some [] ∧
    (∀ k, (opt_theta P [] (k + 1)).out = none) := by
  obtain ⟨htr, hn, hlat, hbq, himg, hnb⟩ := h
  have hbase := eval_base_grid_eq P [] ⟨htr, hn, hlat, hbq, himg, hnb⟩
  have hall : ∀ i ∈ ([] : List (List FVal)).map (fun img => specBaseIndex P img),
      i < P.grid.baseQuat.length := by
    intro i hi
    simp at hi
  constructor
  · rw [opt_theta]
    simp only [htr, Bool.false_eq_true, if_false, hbase]
    rw [if_pos hall]
    rfl
  · intro k
    rw [opt_theta]
    simp only [htr, Bool.false_eq_true, if_false, hbase]
    rw [if_pos hall]
    rfl

/-- Witness for C3 (amended) at the concrete instance `P0`: the empty batch
returns the empty output at `niter = 0` and fails at `niter = 3`. -/
theorem C3_witness :
    (opt_theta P0 [] 0).out = some [] ∧ (opt_theta P0 [] 3).out = none :=
  ⟨(C3_empty_batch P0 wf_P0_nil).1, (C3_empty_batch P0 wf_P0_nil).2 2⟩

/-- The flattened coordinate lattice built by `VAE.__init__` and
`BNBOpt.__init__` (`models.py` lines 53-56 and 82-85): row `r` of the
`ny*nx` by 3 array is `(-1 + 2*(r mod nx)/nx, -1 + 2*(r div nx)/ny, 0)` —
the centered xy plane with third component zero. -/
def latticeDef (ny nx : ℕ) : List Vec3 :=
  (List.range (ny * nx)).map (fun r =>
    ![-1 + 2 * ((r % nx : ℕ) : ℚ) / (nx : ℚ),
      -1 + 2 * ((r / nx : ℕ) : ℚ) / (ny : ℚ), 0])

/-- C9: the code transforms the lattice as `lattice @ rot`, so each lattice
row `v` (a row 3-vector whose third component is zero) is sent to `Rᵀ · v`:
the render model is always queried at coordinates rotated by the transpose of
the candidate rotation, not by `R` itself. -/
theorem C9_lattice_transpose (lat : List Vec3) (M : Mat3) (v : Vec3)
    (ny nx r : ℕ) :
    vecMulRow v M = Matrix.mulVec (Matrix.transpose (Matrix.of M)) v ∧
    rotateLattice lat M =
      lat.map (fun w => Matrix.mulVec (Matrix.transpose (Matrix.of M)) w) ∧
    ((latticeDef ny nx).getD r (fun _ => 0)) 2 = 0 := by
  have hvm : ∀ w : Vec3,
      vecMulRow w M = Matrix.mulVec (Matrix.transpose (Matrix.of M)) w := by
    intro w
    funext j
    simp [vecMulRow, Matrix.mulVec, Matrix.dotProduct, Fin.sum_univ_three,
      Matrix.transpose_apply, Matrix.of_apply]
    ring
  refine ⟨hvm v, ?_, ?_⟩
  · have hfun : (fun w => vecMulRow w M) =
        fun w => Matrix.mulVec (Matrix.transpose (Matrix.of M)) w := funext hvm
    rw [rotateLattice, hfun]
  · have hd : (latticeDef ny nx).getD r (fun _ => 0) =
        ((latticeDef ny nx).get? r).getD (fun _ => 0) := rfl
    rw [hd]
    cases hg : (latticeDef ny nx).get? r with
    | none => rfl
    | some w =>
      have hw : w ∈ latticeDef ny nx := List.get?_mem hg
      rw [latticeDef, List.mem_map] at hw
      obtain ⟨k, _, rfl⟩ := hw
      rfl

/-- C10: the refinement stage hard-codes the fan-out 8 in
`y_hat.view(-1, 8, ny, nx)`.  When every image contributes exactly 8
candidates, the reshape associates each image with precisely its own 8
candidates and the per-image arg-min is taken over them; when the total
candidate count is not a multiple of 8, the reshape fails and the evaluation
raises. -/
theorem C10_eight_fanout (P : BNB) (images : List (List FVal))
    (quat : List (List Quat4)) (hq : quat ≠ [])
    (hlen : quat.length = images.length)
    (hn : 0 < P.ny * P.nx) (hlat : P.lattice.length = P.ny * P.nx)
    (himg : ∀ img ∈ images, img.length = P.ny * P.nx) :
    ((∀ l ∈ quat, l.length = 8) →
      eval_incremental_grid P images quat =
        (1, some (List.zipWith (fun img qs =>
          argminTorch (qs.map (fun q => errOf img (renderQuat P q))))
          images quat))) ∧
    ((concatAll quat).length % 8 ≠ 0 →
      (eval_incremental_grid P images quat).2 = none) := by
  constructor
  · intro h8
    exact eval_incremental_grid_eq P images quat hq hlen h8 hn hlat himg
  · intro hmod
    have hqe : quat.isEmpty = false := by
      cases quat with
      | nil => exact absurd rfl hq
      | cons l ls => rfl
    have hylen : (renderAll P ((concatAll quat).map quaternions_to_SO3)).length =
        (concatAll quat).length * (P.ny * P.nx) := by
      rw [renderAll_concat, concatAll_length _ _ ?hl, List.length_map]
      case hl =>
        intro ys hys
        rw [List.mem_map] at hys
        obtain ⟨q, _, rfl⟩ := hys
        rw [renderQuat_length, hlat]
    rw [eval_incremental_grid]
    simp only [hqe, Bool.false_eq_true, if_false]
    split
    · rename_i hc
      exfalso
      have h2 := hc.2
      rw [hylen] at h2
      have h3 : (concatAll quat).length * (P.ny * P.nx) % (8 * (P.ny * P.nx)) =
          ((concatAll quat).length % 8) * (P.ny * P.nx) :=
        Nat.mul_mod_mul_right _ _ _
      rw [h3] at h2
      rcases Nat.mul_eq_zero.mp h2 with h4 | h4
      · exact hmod h4
      · omega
    · rfl

/-- Witness for C10: with exactly 8 candidates for the single image the
evaluation succeeds with the image's own arg-min; with a single candidate
(total not divisible by 8) the reshape fails. -/
theorem himg_P0_single : ∀ img ∈ [img0], img.length = P0.ny * P0.nx := by
  intro img hi
  simp only [List.mem_singleton] at hi
  subst hi
  rfl

theorem C10_witness :
    eval_incremental_grid P0 [img0] [List.replicate 8 qId] =
      (1, some (List.zipWith (fun img qs =>
        argminTorch (qs.map (fun q => errOf img (renderQuat P0 q))))
        [img0] [List.replicate 8 qId])) ∧
    (eval_incremental_grid P0 [img0] [[qId]]).2 = none := by
  constructor
  · refine (C10_eight_fanout P0 [img0] [List.replicate 8 qId] (by simp)
      (by simp) (by decide) rfl himg_P0_single).1 ?_
    intro l hl
    simp only [List.mem_singleton] at hl
    subst hl
    simp
  · exact (C10_eight_fanout P0 [img0] [[qId]] (by simp) (by simp) (by decide)
      rfl himg_P0_single).2 (by decide)

/-- The hat map sending a tangent 3-vector to its skew-symmetric matrix. -/
def skewMat (w : Fin 3 → ℝ) : Matrix (Fin 3) (Fin 3) ℝ :=
  Matrix.of ![![0, -w 2, w 1], ![w 2, 0, -w 0], ![-w 1, w 0, 0]]

/-- Modelled from the spec: `lie_tools.expmap` (the `lie_tools` module is not
under `src/`).  Rodrigues formula
`R = I + sin(θ)/θ · [w]× + (1−cos θ)/θ² · [w]×²` with `θ = ‖w‖`, falling back
to the second-order Taylor expansion of the two coefficients when `θ` is below
a small threshold, so that `θ = 0` exactly yields the identity rotation. -/
noncomputable def expmap (w : Fin 3 → ℝ) : Matrix (Fin 3) (Fin 3) ℝ :=
  let θ := Real.sqrt (w 0 ^ 2 + w 1 ^ 2 + w 2 ^ 2)
  let K := skewMat w
  if θ < 1 / 10000 then
    1 + (1 - θ ^ 2 / 6) • K + (1 / 2 - θ ^ 2 / 24) • (K * K)
  else
    1 + (Real.sin θ / θ) • K + ((1 - Real.cos θ) / θ ^ 2) • (K * K)

/-- `SO3reparameterize.sampleSO3` (`models.py` lines 218-229): given the
standard-normal draw `eps` from the external random source, form the tangent
noise `w_eps = eps * z_std`, push it through the exponential map, and return
the sampled rotation `z_mu @ expmap(w_eps)` together with `w_eps`, batched
over an arbitrary index type. -/
noncomputable def sampleSO3 {ι : Type} (eps z_std : ι → Fin 3 → ℝ)
    (z_mu : ι → Matrix (Fin 3) (Fin 3) ℝ) :
    (ι → Matrix (Fin 3) (Fin 3) ℝ) × (ι → Fin 3 → ℝ) :=
  let w_eps := fun b i => eps b i * z_std b i
  (fun b => z_mu b * expmap (w_eps b), w_eps)

theorem skewMat_zero : skewMat (fun _ => (0 : ℝ)) = 0 := by
  ext i j
  fin_cases i <;> fin_cases j <;>
    simp [skewMat, Matrix.vecHead, Matrix.vecTail]

theorem expmap_zero : expmap (fun _ => (0 : ℝ)) = 1 := by
  rw [expmap]
  have hθ : Real.sqrt ((0 : ℝ) ^ 2 + 0 ^ 2 + 0 ^ 2) = 0 := by
    norm_num
  simp only [hθ, skewMat_zero]
  rw [if_pos (by norm_num)]
  simp

/-- C7: `sampleSO3` returns exactly the pair
`(mean · expMap(eps ⊙ std), eps ⊙ std)` — the perturbation is applied by
right-multiplication in the mean's local frame — and when std = 0 the sampled
rotation equals the mean exactly and the returned tangent noise is zero. -/
theorem C7_sample_right_multiplication (ι : Type) (eps z_std : ι → Fin 3 → ℝ)
    (z_mu : ι → Matrix (Fin 3) (Fin 3) ℝ) :
    (sampleSO3 eps z_std z_mu =
      (fun b => z_mu b * expmap (fun i => eps b i * z_std b i),
       fun b i => eps b i * z_std b i)) ∧
    ((∀ b i, z_std b i = 0) →
      (sampleSO3 eps z_std z_mu).1 = z_mu ∧
      (sampleSO3 eps z_std z_mu).2 = fun _ _ => 0) := by
  constructor
  · rfl
  · intro hstd
    constructor
    · funext b
      have hw : (fun i => eps b i * z_std b i) = fun _ => (0 : ℝ) := by
        funext i
        rw [hstd b i, mul_zero]
      show z_mu b * expmap (fun i => eps b i * z_std b i) = z_mu b
      rw [hw, expmap_zero, mul_one]
    · funext b i
      show eps b i * z_std b i = 0
      rw [hstd b i, mul_zero]

/-- Witness for C7 with a concrete one-element batch, std = 0 and the
identity mean: the sampled rotation is exactly the mean. -/
theorem C7_witness :
    (sampleSO3 (fun (_ : Fin 1) (_ : Fin 3) => (1 : ℝ)) (fun _ _ => 0)
      (fun _ => 1)).1 = fun _ => 1 :=
  ((C7_sample_right_multiplication (Fin 1) (fun _ _ => 1) (fun _ _ => 0)
    (fun _ => 1)).2 (fun _ _ => rfl)).1

/-- One trailing dimension of a PyTorch broadcast: the two sizes are equal or
one of them is 1. -/
def bcDim (a b : ℕ) : Prop := a = b ∨ a = 1 ∨ b = 1

instance (a b : ℕ) : Decidable (bcDim a b) :=
  inferInstanceAs (Decidable (a = b ∨ a = 1 ∨ b = 1))

/-- Pixel lookup in a flattened image of shape `(h, w)` under broadcasting: a
dimension of size 1 is repeated along the broadcast output. -/
def getPix (flat : List FVal) (h w y x : ℕ) : FVal :=
  flat.getD ((if h = 1 then 0 else y) * w + (if w = 1 then 0 else x)) FVal.nan

/-- `torch.sum((images - y_hat).pow(2), (-1,-2))` for one image of shape
`(iy, ix)` against one rendered candidate of shape `(ny, nx)`, with PyTorch
broadcasting of the two trailing dimensions: the output plane is
`max iy ny` by `max ix nx` and a size-1 dimension is repeated. -/
def errBroadcast (iy ix : ℕ) (img : List FVal) (ny nx : ℕ)
    (cand : List FVal) : FVal :=
  sumF ((List.range (max iy ny * max ix nx)).map (fun i =>
    (FVal.sub (getPix img iy ix (i / max ix nx) (i % max ix nx))
      (getPix cand ny nx (i / max ix nx) (i % max ix nx))).sq))

/-- Broadcast-faithful model of `BNBOpt.eval_base_grid` (`models.py` lines
89-98) for an image tensor of shape `(B, iy, ix)`, the per-image shape carried
explicitly.  The render query is issued before anything else; then the
`view(-1, ny, nx)` reshape and the non-empty argmin dimension are checked, and
the line-96 subtraction `(B,1,iy,ix) - (1,K,ny,nx)` succeeds exactly when each
trailing dimension matches or is 1 on either side, in which case the error is
the broadcast sum of squares. -/
def eval_base_grid_bc (P : BNB) (iy ix : ℕ) (images : List (List FVal)) :
    ℕ × Option (List ℕ) :=
  let y_all := renderAll P (P.grid.baseQuat.map quaternions_to_SO3)
  let n := P.ny * P.nx
  if 0 < n ∧ y_all.length % n = 0 ∧ chunkExact n y_all ≠ [] ∧
      bcDim iy P.ny ∧ bcDim ix P.nx then
    (1, some (images.map (fun img =>
      argminTorch ((chunkExact n y_all).map
        (fun c => errBroadcast iy ix img P.ny P.nx c)))))
  else (1, none)

/-- Broadcast-faithful model of `BNBOpt.eval_incremental_grid` (`models.py`
lines 100-108) for an image tensor of shape `(B, iy, ix)`: one render query
unless the candidate list is empty (`np.concatenate` raises first, with zero
queries); `view(-1, 8, ny, nx)` groups candidates into chunks of 8; the
line-106 subtraction `(B,1,iy,ix) - (K,8,ny,nx)` is modelled for `K = B` and
`K = 1` in the batch dimension together with broadcast-compatible trailing
dimensions; the remaining corner (`B = 1` against `K > 1` groups) can only
arise from a non-8 neighbor fan-out and is modelled as an error. -/
def eval_incremental_grid_bc (P : BNB) (iy ix : ℕ) (images : List (List FVal))
    (quat : List (List Quat4)) : ℕ × Option (List ℕ) :=
  if quat.isEmpty then (0, none) else
  let allQ := concatAll quat
  let y_all := renderAll P (allQ.map quaternions_to_SO3)
  let n := P.ny * P.nx
  if 0 < n ∧ y_all.length % (8 * n) = 0 then
    let groups := chunkExact 8 (chunkExact n y_all)
    if groups.length = images.length ∧ bcDim iy P.ny ∧ bcDim ix P.nx then
      (1, some (List.zipWith (fun img g => argminTorch (g.map
        (fun c => errBroadcast iy ix img P.ny P.nx c))) images groups))
    else if groups.length = 1 ∧ bcDim iy P.ny ∧ bcDim ix P.nx then
      (1, some (images.map (fun img => argminTorch ((groups.headD []).map
        (fun c => errBroadcast iy ix img P.ny P.nx c)))))
    else (1, none)
  else (1, none)

/-- The refinement loop of `opt_theta` over the broadcast-faithful
incremental evaluation, for an image tensor of shape `(B, iy, ix)`. -/
def refineLoop_bc (P : BNB) (iy ix : ℕ) (images : List (List FVal)) :
    ℕ → ℕ → List SState → ℕ × Option (List SState)
  | _, 0, st => (0, some st)
  | level, Nat.succ r, st =>
    let nbrs := st.map (fun s => P.grid.neighbor s.1 s.2.1 s.2.2 level)
    let quat := nbrs.map (fun x => x.1)
    let ind := nbrs.map (fun x => x.2)
    match eval_incremental_grid_bc P iy ix images quat with
    | (q, none) => (q, none)
    | (q, some mins) =>
      if mins.length = st.length ∧
          (∀ l ∈ quat, l.length = (quat.headD []).length) ∧
          (∀ l ∈ ind, l.length = (ind.headD []).length) ∧
          (∀ p ∈ List.zip mins quat, p.1 < p.2.length) ∧
          (∀ p ∈ List.zip mins ind, p.1 < p.2.length) then
        let st' := List.zipWith
          (fun nb i => ((nb.1).getD i (fun _ => 0), (nb.2).getD i (0, 0)))
          nbrs mins
        let next := refineLoop_bc P iy ix images (level + 1) r st'
        (q + next.1, next.2)
      else (q, none)

/-- Broadcast-faithful model of `BNBOpt.opt_theta` (`models.py` lines
110-125) for an image tensor of shape `(B, iy, ix)`: identical to `opt_theta`
but with the line-96/106 subtractions given their PyTorch broadcast
semantics instead of being restricted to the shape-matched case. -/
def opt_theta_bc (P : BNB) (iy ix : ℕ) (images : List (List FVal))
    (niter : ℕ) : OptOut :=
  if P.model.training then ⟨0, none, P.model⟩ else
  match eval_base_grid_bc P iy ix images with
  | (q0, none) => ⟨q0, none, P.model⟩
  | (q0, some min_i) =>
    if ∀ i ∈ min_i, i < P.grid.baseQuat.length then
      match refineLoop_bc P iy ix images 1 niter (min_i.map (fun i =>
        (P.grid.baseQuat.getD i (fun _ => 0), P.grid.cellOf i))) with
      | (q1, none) => ⟨q0 + q1, none, P.model⟩
      | (q1, some st) =>
        ⟨q0 + q1, some (st.map (fun s => quaternions_to_SO3 s.1)), P.model⟩
    else ⟨q0, none, P.model⟩

/-- Written from the spec's words, for an image of shape `(iy, ix)` scored
under broadcasting: the base-stage per-image arg-min over every base-grid
rotation. -/
def specBaseIndexBC (P : BNB) (iy ix : ℕ) (img : List FVal) : ℕ :=
  argminTorch (P.grid.baseQuat.map (fun q =>
    errBroadcast iy ix img P.ny P.nx (renderQuat P q)))

/-- Written from the spec's words: the level-0 search state of one
`(iy, ix)`-shaped image. -/
def specStartBC (P : BNB) (iy ix : ℕ) (img : List FVal) : SState :=
  let i := specBaseIndexBC P iy ix img
  (P.grid.baseQuat.getD i (fun _ => 0), P.grid.cellOf i)

/-- Written from the spec's words: one refinement step of one
`(iy, ix)`-shaped image at one level. -/
def specRefineStepBC (P : BNB) (iy ix : ℕ) (img : List FVal) (level : ℕ)
    (s : SState) : SState :=
  let nb := P.grid.neighbor s.1 s.2.1 s.2.2 level
  let j := argminTorch (nb.1.map (fun q =>
    errBroadcast iy ix img P.ny P.nx (renderQuat P q)))
  ((nb.1).getD j (fun _ => 0), (nb.2).getD j (0, 0))

/-- Written from the spec's words: `remaining` refinement steps at levels
`level, level+1, ...` for one `(iy, ix)`-shaped image. -/
def specRefineFromBC (P : BNB) (iy ix : ℕ) (img : List FVal) :
    ℕ → ℕ → SState → SState
  | _, 0, s => s
  | level, Nat.succ r, s =>
    specRefineFromBC P iy ix img (level + 1) r
      (specRefineStepBC P iy ix img level s)

/-- Written from the spec's words: the whole per-image search of one
`(iy, ix)`-shaped image. -/
def specSearchBC (P : BNB) (iy ix : ℕ) (img : List FVal) (niter : ℕ) : Mat3 :=
  quaternions_to_SO3
    (specRefineFromBC P iy ix img 1 niter (specStartBC P iy ix img)).1

/-- The contract under which a broadcast search call completes: inference
mode, nonempty base grid, nondegenerate lattice plane, 8-fold neighbor
enumeration, and an image shape broadcast-compatible with the lattice plane
(each trailing dimension matches or is 1 on either side) — no requirement
that the image shape equal the lattice shape. -/
def WellFormedBC (P : BNB) (iy ix : ℕ) : Prop :=
  P.model.training = false ∧
  0 < P.ny * P.nx ∧
  P.lattice.length = P.ny * P.nx ∧
  P.grid.baseQuat ≠ [] ∧
  bcDim iy P.ny ∧
  bcDim ix P.nx ∧
  (∀ q a b l, (P.grid.neighbor q a b l).1.length = 8 ∧
    (P.grid.neighbor q a b l).2.length = 8)

/-- A concrete search instance over a 2-by-2 lattice plane, against which a
3-by-3 image is broadcast-incompatible. -/
def P4 : BNB := ⟨grid0, model0, 2, 2, [v0, v0, v0, v0]⟩

theorem eval_base_grid_bc_eq (P : BNB) (iy ix : ℕ) (images : List (List FVal))
    (h : WellFormedBC P iy ix) :
    eval_base_grid_bc P iy ix images =
      (1, some (images.map (fun img => specBaseIndexBC P iy ix img))) := by
  obtain ⟨htr, hn, hlat, hbq, hby, hbx, hnb⟩ := h
  have hy : renderAll P (P.grid.baseQuat.map quaternions_to_SO3) =
      concatAll (P.grid.baseQuat.map (fun q => renderQuat P q)) :=
    renderAll_concat P P.grid.baseQuat
  have hlens : ∀ ys ∈ P.grid.baseQuat.map (fun q => renderQuat P q),
      ys.length = P.ny * P.nx := by
    intro ys hys
    rw [List.mem_map] at hys
    obtain ⟨q, _, rfl⟩ := hys
    rw [renderQuat_length, hlat]
  have hchunk : chunkExact (P.ny * P.nx)
      (renderAll P (P.grid.baseQuat.map quaternions_to_SO3)) =
      P.grid.baseQuat.map (fun q => renderQuat P q) := by
    rw [hy]
    exact chunkExact_concatAll _ hn _ hlens
  have hylen : (renderAll P (P.grid.baseQuat.map quaternions_to_SO3)).length =
      P.grid.baseQuat.length * (P.ny * P.nx) := by
    rw [hy, concatAll_length _ _ hlens, List.length_map]
  rw [eval_base_grid_bc]
  split
  · simp only [hchunk, List.map_map]
    rfl
  · rename_i hc
    exfalso
    apply hc
    refine ⟨hn, ?_, ?_, hby, hbx⟩
    · rw [hylen]
      exact Nat.mul_mod_left _ _
    · rw [hchunk]
      simp only [ne_eq, List.map_eq_nil_iff]
      exact hbq

theorem eval_incremental_grid_bc_eq (P : BNB) (iy ix : ℕ)
    (images : List (List FVal)) (quat : List (List Quat4))
    (hq : quat ≠ [])
    (hlen : quat.length = images.length)
    (h8 : ∀ l ∈ quat, l.length = 8)
    (hn : 0 < P.ny * P.nx)
    (hlat : P.lattice.length = P.ny * P.nx)
    (hby : bcDim iy P.ny) (hbx : bcDim ix P.nx) :
    eval_incremental_grid_bc P iy ix images quat =
      (1, some (List.zipWith (fun img qs =>
        argminTorch (qs.map (fun q =>
          errBroadcast iy ix img P.ny P.nx (renderQuat P q)))) images quat)) := by
  have hqe : quat.isEmpty = false := by
    cases quat with
    | nil => exact absurd rfl hq
    | cons l ls => rfl
  have hy : renderAll P ((concatAll quat).map quaternions_to_SO3) =
      concatAll ((concatAll quat).map (fun q => renderQuat P q)) :=
    renderAll_concat P (concatAll quat)
  have hlens : ∀ ys ∈ (concatAll quat).map (fun q => renderQuat P q),
      ys.length = P.ny * P.nx := by
    intro ys hys
    rw [List.mem_map] at hys
    obtain ⟨q, _, rfl⟩ := hys
    rw [renderQuat_length, hlat]
  have hchunk : chunkExact (P.ny * P.nx)
      (renderAll P ((concatAll quat).map quaternions_to_SO3)) =
      (concatAll quat).map (fun q => renderQuat P q) := by
    rw [hy]
    exact chunkExact_concatAll _ hn _ hlens
  have hmapc : (concatAll quat).map (fun q => renderQuat P q) =
      concatAll (quat.map (List.map (fun q => renderQuat P q))) :=
    map_concatAll _ _
  have hlens8 : ∀ ys ∈ quat.map (List.map (fun q => renderQuat P q)),
      ys.length = 8 := by
    intro ys hys
    rw [List.mem_map] at hys
    obtain ⟨l, hl, rfl⟩ := hys
    rw [List.length_map]
    exact h8 l hl
  have hgroups : chunkExact 8 ((concatAll quat).map (fun q => renderQuat P q)) =
      quat.map (List.map (fun q => renderQuat P q)) := by
    rw [hmapc]
    exact chunkExact_concatAll _ (by omega) _ hlens8
  have hallQlen : (concatAll quat).length = quat.length * 8 :=
    concatAll_length _ _ h8
  have hylen : (renderAll P ((concatAll quat).map quaternions_to_SO3)).length =
      quat.length * (8 * (P.ny * P.nx)) := by
    rw [hy, concatAll_length _ _ hlens, List.length_map, hallQlen]
    ring
  rw [eval_incremental_grid_bc]
  simp only [hqe, Bool.false_eq_true, if_false]
  split
  · split
    · simp only [hchunk, hgroups]
      rw [zipWith_map_right']
      simp only [List.map_map]
      rfl
    · rename_i hc
      exfalso
      apply hc
      refine ⟨?_, hby, hbx⟩
      rw [hchunk, hgroups, List.length_map]
      exact hlen
  · rename_i hc
    exfalso
    apply hc
    refine ⟨hn, ?_⟩
    rw [hylen]
    exact Nat.mul_mod_left _ _

theorem refineLoop_bc_eq (P : BNB) (iy ix : ℕ) (images : List (List FVal))
    (hn : 0 < P.ny * P.nx)
    (hlat : P.lattice.length = P.ny * P.nx)
    (hby : bcDim iy P.ny) (hbx : bcDim ix P.nx)
    (hnb : ∀ q a b l, (P.grid.neighbor q a b l).1.length = 8 ∧
      (P.grid.neighbor q a b l).2.length = 8)
    (hB : images ≠ []) :
    ∀ (r level : ℕ) (st : List SState), st.length = images.length →
      refineLoop_bc P iy ix images level r st =
        (r, some (List.zipWith
          (fun img s => specRefineFromBC P iy ix img level r s) images st)) := by
  intro r
  induction r with
  | zero =>
    intro level st hst
    rw [refineLoop_bc]
    have : List.zipWith
        (fun img (s : SState) => specRefineFromBC P iy ix img level 0 s)
        images st = List.zipWith (fun _ s => s) images st := rfl
    rw [this, zipWith_const_right images st (le_of_eq hst)]
  | succ r ih =>
    intro level st hst
    have hstne : st ≠ [] := by
      intro he
      rw [he] at hst
      exact hB (List.length_eq_zero.mp hst.symm)
    rw [refineLoop_bc]
    set nbq : SState → List Quat4 :=
      fun s => (P.grid.neighbor s.1 s.2.1 s.2.2 level).1 with hnbq
    set nbi : SState → List (ℕ × ℕ) :=
      fun s => (P.grid.neighbor s.1 s.2.1 s.2.2 level).2 with hnbi
    have hquat : ((st.map (fun s => P.grid.neighbor s.1 s.2.1 s.2.2 level)).map
        (fun x => x.1)) = st.map nbq := by
      rw [List.map_map]
      rfl
    have hind : ((st.map (fun s => P.grid.neighbor s.1 s.2.1 s.2.2 level)).map
        (fun x => x.2)) = st.map nbi := by
      rw [List.map_map]
      rfl
    have hq : st.map nbq ≠ [] := by
      simp only [ne_eq, List.map_eq_nil_iff]
      exact hstne
    have hlen : (st.map nbq).length = images.length := by
      rw [List.length_map, hst]
    have h8 : ∀ l ∈ st.map nbq, l.length = 8 := by
      intro l hl
      rw [List.mem_map] at hl
      obtain ⟨s, _, rfl⟩ := hl
      exact (hnb s.1 s.2.1 s.2.2 level).1
    have h8i : ∀ l ∈ st.map nbi, l.length = 8 := by
      intro l hl
      rw [List.mem_map] at hl
      obtain ⟨s, _, rfl⟩ := hl
      exact (hnb s.1 s.2.1 s.2.2 level).2
    have heval := eval_incremental_grid_bc_eq P iy ix images (st.map nbq)
      hq hlen h8 hn hlat hby hbx
    set mins := List.zipWith (fun img qs =>
      argminTorch (qs.map (fun q =>
        errBroadcast iy ix img P.ny P.nx (renderQuat P q)))) images (st.map nbq)
      with hmins
    have hminmem : ∀ i ∈ mins, i < 8 := by
      intro i hi
      obtain ⟨img, qs, _, hqs, rfl⟩ := zipWith_mem _ images (st.map nbq) i hi
      have hql : qs.length = 8 := h8 qs hqs
      have hne : qs.map (fun q =>
          errBroadcast iy ix img P.ny P.nx (renderQuat P q)) ≠ [] := by
        simp only [ne_eq, List.map_eq_nil_iff]
        intro he
        rw [he] at hql
        simp at hql
      have := argminTorch_lt_length _ hne
      rw [List.length_map, hql] at this
      exact this
    have hminlen : mins.length = st.length := by
      rw [hmins, List.length_zipWith, List.length_map, hst, min_self]
    rw [hquat, hind]
    simp only [heval]
    have hcond : mins.length = st.length ∧
        (∀ l ∈ st.map nbq, l.length = ((st.map nbq).headD []).length) ∧
        (∀ l ∈ st.map nbi, l.length = ((st.map nbi).headD []).length) ∧
        (∀ p ∈ List.zip mins (st.map nbq), p.1 < p.2.length) ∧
        (∀ p ∈ List.zip mins (st.map nbi), p.1 < p.2.length) := by
      refine ⟨hminlen, ?_, ?_, ?_, ?_⟩
      · intro l hl
        cases hc : st.map nbq with
        | nil => rw [hc] at hl; simp at hl
        | cons l0 ls =>
          have h0 : l0 ∈ st.map nbq := by rw [hc]; exact List.mem_cons_self l0 ls
          simp only [List.headD_cons]
          rw [h8 l hl, h8 l0 h0]
      · intro l hl
        cases hc : st.map nbi with
        | nil => rw [hc] at hl; simp at hl
        | cons l0 ls =>
          have h0 : l0 ∈ st.map nbi := by rw [hc]; exact List.mem_cons_self l0 ls
          simp only [List.headD_cons]
          rw [h8i l hl, h8i l0 h0]
      · intro p hp
        have hmem := List.of_mem_zip hp
        rw [h8 p.2 hmem.2]
        exact hminmem p.1 hmem.1
      · intro p hp
        have hmem := List.of_mem_zip hp
        rw [h8i p.2 hmem.2]
        exact hminmem p.1 hmem.1
    rw [if_pos hcond]
    have hst' : (List.zipWith
        (fun nb i => ((nb.1).getD i (fun _ => (0 : ℚ)), (nb.2).getD i (0, 0)))
        (st.map (fun s => P.grid.neighbor s.1 s.2.1 s.2.2 level)) mins) =
        List.zipWith (fun img s => specRefineStepBC P iy ix img level s)
          images st := by
      rw [zipWith_map_left']
      rw [hmins, zipWith_map_right']
      rw [zipWith_left_comm]
      rfl
    rw [hst']
    have hlen' : (List.zipWith (fun img s => specRefineStepBC P iy ix img level s)
        images st).length = images.length := by
      rw [List.length_zipWith, hst, min_self]
    rw [ih (level + 1) _ hlen']
    rw [zipWith_fuse]
    simp [Nat.add_comm]
    rfl

theorem opt_theta_bc_eq (P : BNB) (iy ix : ℕ) (images : List (List FVal))
    (niter : ℕ) (h : WellFormedBC P iy ix) (hB : images ≠ []) :
    opt_theta_bc P iy ix images niter =
      ⟨1 + niter, some (images.map (fun img => specSearchBC P iy ix img niter)),
        P.model⟩ := by
  obtain ⟨htr, hn, hlat, hbq, hby, hbx, hnb⟩ := h
  have hbase := eval_base_grid_bc_eq P iy ix images
    ⟨htr, hn, hlat, hbq, hby, hbx, hnb⟩
  have hall : ∀ i ∈ images.map (fun img => specBaseIndexBC P iy ix img),
      i < P.grid.baseQuat.length := by
    intro i hi
    rw [List.mem_map] at hi
    obtain ⟨img, _, rfl⟩ := hi
    have hne : P.grid.baseQuat.map (fun q =>
        errBroadcast iy ix img P.ny P.nx (renderQuat P q)) ≠ [] := by
      simp only [ne_eq, List.map_eq_nil_iff]
      exact hbq
    have hlt := argminTorch_lt_length _ hne
    rw [List.length_map] at hlt
    exact hlt
  have hst0 : ((images.map (fun img => specBaseIndexBC P iy ix img)).map (fun i =>
      (P.grid.baseQuat.getD i (fun _ => (0 : ℚ)), P.grid.cellOf i))) =
      images.map (fun img => specStartBC P iy ix img) := by
    rw [List.map_map]
    rfl
  have hlen0 : (images.map (fun img => specStartBC P iy ix img)).length =
      images.length := List.length_map _ _
  have hloop := refineLoop_bc_eq P iy ix images hn hlat hby hbx hnb hB niter 1
    (images.map (fun img => specStartBC P iy ix img)) hlen0
  rw [opt_theta_bc]
  simp only [htr, Bool.false_eq_true, if_false]
  simp only [hbase]
  rw [if_pos hall]
  simp only [hst0, hloop]
  rw [zipWith_self_map, List.map_map]
  rfl

theorem opt_theta_bc_queries (P : BNB) (iy ix : ℕ) (images : List (List FVal))
    (niter : ℕ) (htr : P.model.training = false) :
    1 ≤ (opt_theta_bc P iy ix images niter).queries := by
  have h1 : (eval_base_grid_bc P iy ix images).1 = 1 := by
    rw [eval_base_grid_bc]
    split
    · rfl
    · rfl
  rw [opt_theta_bc]
  simp only [htr, Bool.false_eq_true, if_false]
  split
  · rename_i q0 heq
    rw [heq] at h1
    simp only at h1
    show 1 ≤ q0
    omega
  · rename_i q0 min_i heq
    rw [heq] at h1
    simp only at h1
    split
    · split
      · rename_i q1 hr
        show 1 ≤ q0 + q1
        omega
      · rename_i q1 st hr
        show 1 ≤ q0 + q1
        omega
    · show 1 ≤ q0
      omega

theorem wfbc_P0_1_2 : WellFormedBC P0 1 2 := by
  refine ⟨rfl, by decide, rfl, by simp [P0, grid0], Or.inl rfl,
    Or.inr (Or.inr rfl), ?_⟩
  intro q a b l
  constructor <;> simp [P0, grid0]

/-- C4 counterexample: a call whose image dimensions are mismatched but
broadcast-compatible — a (1,2)-shaped image over the 1-by-1 lattice plane of
`P0` — does not fail at all, let alone before a render query: the PyTorch
subtraction `(1,1,1,2) - (1,Q,1,1)` broadcasts at the base stage and
`(1,1,1,2) - (1,8,1,1)` at every refinement stage, so the search completes
normally, returning a result after 6 batched render queries instead of
failing with a shape error before any query. -/
theorem C4_counterexample :
    (opt_theta_bc P0 1 2 [[FVal.fin 0, FVal.fin 0]] 5).queries = 6 ∧
    (opt_theta_bc P0 1 2 [[FVal.fin 0, FVal.fin 0]] 5).out ≠ none := by
  rw [opt_theta_bc_eq P0 1 2 [[FVal.fin 0, FVal.fin 0]] 5 wfbc_P0_1_2 (by simp)]
  exact ⟨rfl, by simp⟩

/-- C4 (amended): no shape check precedes a render-model call.  Every
inference-mode search call issues the batched base-grid render query first,
whatever the image shape; a broadcast-incompatible image shape (a trailing
dimension differing from the lattice's with neither side 1) raises during the
error computation, after that single query; and a broadcast-compatible shape —
matched or not — completes normally and returns a per-image result. -/
theorem C4_no_precheck :
    (∀ (P : BNB) (iy ix : ℕ) (images : List (List FVal)) (niter : ℕ),
      P.model.training = false →
      1 ≤ (opt_theta_bc P iy ix images niter).queries) ∧
    (∀ (P : BNB) (iy ix : ℕ) (images : List (List FVal)) (niter : ℕ),
      P.model.training = false →
      (¬ bcDim iy P.ny ∨ ¬ bcDim ix P.nx) →
      (opt_theta_bc P iy ix images niter).out = none ∧
      (opt_theta_bc P iy ix images niter).queries = 1) ∧
    (∀ (P : BNB) (iy ix : ℕ) (images : List (List FVal)) (niter : ℕ),
      WellFormedBC P iy ix → images ≠ [] →
      (opt_theta_bc P iy ix images niter).out =
        some (images.map (fun img => specSearchBC P iy ix img niter))) := by
  refine ⟨?_, ?_, ?_⟩
  · intro P iy ix images niter htr
    exact opt_theta_bc_queries P iy ix images niter htr
  · intro P iy ix images niter htr hbad
    have hev : eval_base_grid_bc P iy ix images = (1, none) := by
      rw [eval_base_grid_bc]
      split
      · rename_i hc
        rcases hbad with hbad | hbad
        · exact absurd hc.2.2.2.1 hbad
        · exact absurd hc.2.2.2.2 hbad
      · rfl
    rw [opt_theta_bc]
    simp [htr, hev]
  · intro P iy ix images niter hw hB
    rw [opt_theta_bc_eq P iy ix images niter hw hB]

/-- Witness for C4 (amended) at concrete inputs: a query is issued even on a
degenerate call; a (3,3)-shaped image over the 2-by-2 lattice of `P4` is
broadcast-incompatible and fails after exactly one query; a (1,2)-shaped
image over the 1-by-1 lattice of `P0` broadcasts and completes. -/
theorem C4_witness :
    1 ≤ (opt_theta_bc P0 1 1 [img0] 0).queries ∧
    (opt_theta_bc P4 3 3 [List.replicate 9 (FVal.fin 0)] 2).out = none ∧
    (opt_theta_bc P4 3 3 [List.replicate 9 (FVal.fin 0)] 2).queries = 1 ∧
    (opt_theta_bc P0 1 2 [[FVal.fin 1, FVal.fin 1]] 2).out =
      some ([[FVal.fin 1, FVal.fin 1]].map
        (fun img => specSearchBC P0 1 2 img 2)) :=
  ⟨C4_no_precheck.1 P0 1 1 [img0] 0 rfl,
   (C4_no_precheck.2.1 P4 3 3 [List.replicate 9 (FVal.fin 0)] 2 rfl
     (Or.inl (by decide))).1,
   (C4_no_precheck.2.1 P4 3 3 [List.replicate 9 (FVal.fin 0)] 2 rfl
     (Or.inl (by decide))).2,
   C4_no_precheck.2.2 P0 1 2 [[FVal.fin 1, FVal.fin 1]] 2 wfbc_P0_1_2
     (by simp)⟩

theorem getPix_matched (h w i : ℕ) (hi : i < h * w) (flat : List FVal) :
    getPix flat h w (i / w) (i % w) = flat.getD i FVal.nan := by
  rw [getPix]
  have h1 : (if h = 1 then 0 else i / w) = i / w := by
    split
    · rename_i hh
      subst hh
      rw [one_mul] at hi
      exact (Nat.div_eq_of_lt hi).symm
    · rfl
  have h2 : (if w = 1 then 0 else i % w) = i % w := by
    split
    · rename_i hw
      subst hw
      simp [Nat.mod_one]
    · rfl
  rw [h1, h2]
  congr 1
  rw [Nat.mul_comm]
  exact Nat.div_add_mod i w

theorem zipWith_getD_range {α β γ : Type} (f : α → β → γ) (da : α) (db : β) :
    ∀ (xs : List α) (ys : List β), xs.length = ys.length →
      List.zipWith f xs ys =
        (List.range xs.length).map (fun i => f (xs.getD i da) (ys.getD i db)) := by
  intro xs
  induction xs with
  | nil =>
    intro ys h
    simp
  | cons a xs ih =>
    intro ys h
    cases ys with
    | nil => simp at h
    | cons b ys =>
      have hlen : xs.length = ys.length := by simpa using h
      simp only [List.zipWith_cons_cons, List.length_cons]
      rw [List.range_succ_eq_map]
      simp only [List.map_cons, List.map_map]
      rw [ih ys hlen]
      rfl

/-- The broadcast error of an image whose shape equals the lattice plane is
exactly the elementwise sum-of-squares error `errOf`: the original
shape-matched embedding is the matched specialization of the broadcast
model. -/
theorem errBroadcast_matched (ny nx : ℕ) (img cand : List FVal)
    (himg : img.length = ny * nx) (hcand : cand.length = ny * nx) :
    errBroadcast ny nx img ny nx cand = errOf img cand := by
  rw [errBroadcast, errOf]
  simp only [Nat.max_self]
  congr 1
  rw [zipWith_getD_range (fun a b => (FVal.sub a b).sq) FVal.nan FVal.nan
    img cand (by rw [himg, hcand])]
  rw [himg]
  apply List.map_congr_left
  intro i hi
  rw [List.mem_range] at hi
  rw [getPix_matched ny nx i hi img, getPix_matched ny nx i hi cand]

theorem specSearchBC_matched (P : BNB) (img : List FVal) (niter : ℕ)
    (hlat : P.lattice.length = P.ny * P.nx)
    (himg : img.length = P.ny * P.nx) :
    specSearchBC P P.ny P.nx img niter = specSearch P img niter := by
  have hf : (fun q => errBroadcast P.ny P.nx img P.ny P.nx (renderQuat P q)) =
      fun q => errOf img (renderQuat P q) := by
    funext q
    exact errBroadcast_matched _ _ _ _ himg (by rw [renderQuat_length, hlat])
  have hbase : specBaseIndexBC P P.ny P.nx img = specBaseIndex P img := by
    rw [specBaseIndexBC, specBaseIndex, hf]
  have hstep : ∀ level s, specRefineStepBC P P.ny P.nx img level s =
      specRefineStep P img level s := by
    intro level s
    rw [specRefineStepBC, specRefineStep, hf]
  have hfrom : ∀ r level s, specRefineFromBC P P.ny P.nx img level r s =
      specRefineFrom P img level r s := by
    intro r
    induction r with
    | zero =>
      intro level s
      rfl
    | succ r ih =>
      intro level s
      rw [specRefineFromBC, specRefineFrom, hstep, ih]
  rw [specSearchBC, specSearch, hfrom, specStartBC, specStart, hbase]

/-- On a well-formed shape-matched batch, the broadcast-faithful search
coincides with the shape-matched embedding `opt_theta`. -/
theorem opt_theta_bc_matched (P : BNB) (images : List (List FVal))
    (niter : ℕ) (h : WellFormed P images) (hB : images ≠ []) :
    opt_theta_bc P P.ny P.nx images niter = opt_theta P images niter := by
  obtain ⟨htr, hn, hlat, hbq, himg, hnb⟩ := h
  rw [opt_theta_eq P images niter ⟨htr, hn, hlat, hbq, himg, hnb⟩ hB]
  rw [opt_theta_bc_eq P P.ny P.nx images niter
    ⟨htr, hn, hlat, hbq, Or.inl rfl, Or.inl rfl, hnb⟩ hB]
  have hmap : images.map (fun img => specSearchBC P P.ny P.nx img niter) =
      images.map (fun img => specSearch P img niter) :=
    List.map_congr_left
      (fun img hm => specSearchBC_matched P img niter hlat (himg img hm))
  rw [hmap]
